import Mathlib

/-!
Verification development for the `synapse_auto_compressor` repository
(rust-synapse-compress-state): a shallow embedding of the state-group data
model, the leveled compaction engine, the verifier, the chunked orchestration,
the error taxonomy (`src/errors.rs`) and the level-configuration parser
(`synapse_auto_compressor/src/main.rs`), together with theorems about them.

Where the deciding Rust code is present in the repository snapshot
(`src/errors.rs`, `synapse_auto_compressor/src/main.rs`) the definitions are
translated from that source.  The compaction core (`lib.rs`), the chunk
manager (`manager.rs`) and the table bootstrap (`state_saving.rs`) are not in
the snapshot; the corresponding definitions are modelled from the
specification and are marked `Modelled from the spec:` in their doc comments.
-/

namespace SynapseCompress

/-! ## StateMap

A `StateMap` maps a key (in the source: a `(type, state_key)` pair of interned
strings) to a value.  We keep the key and value types abstract; equality of
two maps is extensional equality of the key→value assignment, which is the
correctness oracle of the whole system. -/

/-- A state map: a partial mapping from keys to values. -/
abbrev StateMap (K V : Type) := K → Option V

/-- The empty state map. -/
def emptyMap {K V : Type} : StateMap K V := fun _ => none

/-- Apply a delta on top of a base map: delta entries override base entries
for the same key; a delta never removes a key. -/
def applyDelta {K V : Type} (base delta : StateMap K V) : StateMap K V :=
  fun k => match delta k with
    | some v => some v
    | none => base k

/-- Re-express `target` as a delta against `base`: record exactly the keys on
which `target` differs from `base` (override-only model). -/
def getDelta {K V : Type} [DecidableEq V] (base target : StateMap K V) :
    StateMap K V :=
  fun k => if target k = base k then none else target k

/-- `DomLe m₁ m₂`: every key present in `m₁` is present in `m₂`. -/
def DomLe {K V : Type} (m₁ m₂ : StateMap K V) : Prop :=
  ∀ k, m₁ k ≠ none → m₂ k ≠ none

/-! ## State groups and the durable store

Modelled from the spec: a state group row has an optional predecessor id and
a delta (`StateGroup` of §3, the rows of `state_groups_state`); group ids are
`i64` integers.  The durable store is a finite association of ids to rows. -/

/-- One state group row: optional predecessor id, and the delta relative to
that predecessor. -/
structure StateGroupRow (K V : Type) where
  prevStateGroup : Option Int
  stateMap : StateMap K V

/-- A store of state groups: an association list from group id to row. -/
abbrev GroupStore (K V : Type) := List (Int × StateGroupRow K V)

/-- Look a group id up in a store. -/
def lookupGroup {K V : Type} : GroupStore K V → Int → Option (StateGroupRow K V)
  | [], _ => none
  | (i, r) :: rest, id => if i = id then some r else lookupGroup rest id

/-- Modelled from the spec: `resolve_full_state` (§4.1, State Graph Accessor;
`lib.rs` is not in the snapshot).  Walk predecessor links, folding deltas
oldest-to-newest; `none` models the `MissingStateGroup` failure (or a cyclic
walk, which cannot terminate).  `fuel` bounds the number of steps walked. -/
def resolveState {K V : Type} (store : GroupStore K V) :
    Nat → Int → Option (StateMap K V)
  | 0, _ => none
  | fuel + 1, id =>
    match lookupGroup store id with
    | none => none
    | some row =>
      match row.prevStateGroup with
      | none => some row.stateMap
      | some p => (resolveState store fuel p).map (fun base => applyDelta base row.stateMap)

/-- The length (number of groups, the group itself and its root included) of
the predecessor chain from `id` to its root; `none` if a link is missing or
`fuel` runs out.  This is the depth notion of §8 of the spec, where an
uncompressed chain of five groups has depth 5. -/
def chainDepth {K V : Type} (store : GroupStore K V) :
    Nat → Int → Option Nat
  | 0, _ => none
  | fuel + 1, id =>
    match lookupGroup store id with
    | none => none
    | some row =>
      match row.prevStateGroup with
      | none => some 1
      | some p => (chainDepth store fuel p).map (· + 1)

/-- A store is closed when every predecessor link it records points to an id
present in the store. -/
def StoreClosed {K V : Type} (store : GroupStore K V) : Prop :=
  ∀ pr ∈ store, ∀ p, (Prod.snd pr).prevStateGroup = some p →
    p ∈ store.map Prod.fst

/-! ## Levels

Modelled from the spec (§3 `Level`) and from the `LevelInfo` doc comment in
`synapse_auto_compressor/src/main.rs`: each level has a maximum length, a
current length, and an optional current head (`None` if the level is empty).
`Level::new` is the constructor used by `LevelInfo::from_str`. -/

/-- A compaction level: configured maximum size, current accumulated size,
and optional head group id. -/
structure Level where
  maxLength : Nat
  currentLength : Nat
  head : Option Int
  deriving DecidableEq, Repr

/-- `Level::new(size)`: a fresh, empty level with the given maximum size. -/
def Level.new (size : Nat) : Level :=
  { maxLength := size, currentLength := 0, head := none }

/-- Whether the level can accept one more group without overflowing. -/
def Level.hasSpace (l : Level) : Bool :=
  l.currentLength < l.maxLength

/-! ## The Level Engine

Modelled from the spec: the leveled compaction algorithm of §4.2 (`lib.rs` is
not in the snapshot).  Groups are processed oldest-to-newest.  For each new
group the levels are walked finest-to-coarsest: the first level with space
donates its current head as the new group's predecessor and accumulates the
group; every finer (full) level is reset so that the new group becomes its
first entry (cascading promotion).  If every level is full the new group
becomes a root carrying its full state as its delta. -/

/-- Walk the levels finest-to-coarsest for a new group `sg`: returns the
predecessor chosen for `sg` and the updated levels. -/
def updateLevels (sg : Int) : List Level → Option Int × List Level
  | [] => (none, [])
  | l :: ls =>
    if l.hasSpace then
      (l.head,
        { l with currentLength := l.currentLength + 1, head := some sg } :: ls)
    else
      let r := updateLevels sg ls
      (r.1, { l with currentLength := 1, head := some sg } :: r.2)

/-- The Level Engine's resumable state: the ordered levels (finest first) and
the new state groups minted so far (newest first). -/
structure CompressorState (K V : Type) where
  levels : List Level
  newMap : GroupStore K V

/-- Modelled from the spec: one step of §4.2 — process one original group
`sg`, whose original full state is `fullOf sg` (as resolved by the accessor).
The delta stored for `sg` is re-expressed against the chosen predecessor's
original full state (or is the whole full state if `sg` becomes a root). -/
def compressorStep {K V : Type} [DecidableEq V] (fullOf : Int → StateMap K V)
    (cs : CompressorState K V) (sg : Int) : CompressorState K V :=
  let r := updateLevels sg cs.levels
  let delta : StateMap K V :=
    match r.1 with
    | none => fullOf sg
    | some p => getDelta (fullOf p) (fullOf sg)
  { levels := r.2, newMap := (sg, ⟨r.1, delta⟩) :: cs.newMap }

/-- Run the Level Engine over a chain of original group ids, oldest first. -/
def runEngine {K V : Type} [DecidableEq V] (fullOf : Int → StateMap K V)
    (cs : CompressorState K V) : List Int → CompressorState K V
  | [] => cs
  | sg :: rest => runEngine fullOf (compressorStep fullOf cs sg) rest

/-! ## Original chains

A chunk of original state groups is a list of `(id, delta)` pairs, oldest
first, each group's predecessor being the previous group of the list (the
first group is a root).  `chainStore` realises such a chain as a durable
store; `foldFull` is the materialised full state after a prefix. -/

/-- Build the store rows of a linear chain whose first group has predecessor
`prevOpt`. -/
def chainStoreAux {K V : Type} (prevOpt : Option Int) :
    List (Int × StateMap K V) → GroupStore K V
  | [] => []
  | (i, d) :: rest => (i, ⟨prevOpt, d⟩) :: chainStoreAux (some i) rest

/-- The durable store holding exactly a linear chain (first group a root). -/
def chainStore {K V : Type} (chain : List (Int × StateMap K V)) : GroupStore K V :=
  chainStoreAux none chain

/-- The id of the last group of `xs`, or `p` if `xs` is empty. -/
def lastIdOr {K V : Type} (p : Option Int) (xs : List (Int × StateMap K V)) :
    Option Int :=
  xs.foldl (fun _ x => some x.1) p

/-- The full state reached after applying a chain of deltas, oldest first,
onto the empty root state. -/
def foldFull {K V : Type} (l : List (Int × StateMap K V)) : StateMap K V :=
  l.foldl (fun acc x => applyDelta acc x.2) emptyMap

/-- The accessor view of a chain: original full state by group id, used by
the Level Engine to seed baselines (empty where resolution fails). -/
def chainFullOf {K V : Type} (chain : List (Int × StateMap K V)) :
    Int → StateMap K V :=
  fun id => (resolveState (chainStore chain) chain.length id).getD emptyMap

/-! ## Invariants of the Level Engine run

`EngineInv` carries what the round-trip proof needs about the engine state
after a prefix of the chain has been processed; `DepthInv` carries what the
depth-bound proof needs.  Both are plain predicates on the engine state. -/

/-- Total of the current lengths of a list of levels. -/
def levelsLenSum (ls : List Level) : Nat :=
  (ls.map Level.currentLength).sum

/-- Total of the (never-zero) effective capacities of a list of levels: a
level's current length never exceeds `max maxLength 1`. -/
def levelsCapSum (ls : List Level) : Nat :=
  (ls.map fun l => max l.maxLength 1).sum

/-- Every present level head resolves in `m` to a chain whose length is at
most the level's current length plus the lengths of all coarser levels. -/
def HeadsDepth {K V : Type} (m : GroupStore K V) (fuel : Nat) : List Level → Prop
  | [] => True
  | l :: ls =>
    (∀ h, l.head = some h →
      ∃ d, chainDepth m fuel h = some d ∧ d ≤ l.currentLength + levelsLenSum ls) ∧
    HeadsDepth m fuel ls

/-- Invariant of the Level Engine run used for the round-trip theorem:
after processing `processed` (oldest first), the new map holds exactly those
ids, its predecessor links stay inside `processed`, every level head is a
processed id, and every processed id resolves in the new map to its original
full state. -/
structure EngineInv {K V : Type} (fullOf : Int → StateMap K V)
    (processed : List Int) (cs : CompressorState K V) : Prop where
  ids_eq : cs.newMap.map Prod.fst = processed.reverse
  heads : ∀ l ∈ cs.levels, ∀ h, l.head = some h → h ∈ processed
  res : ∀ id ∈ processed, ∀ fuel, cs.newMap.length < fuel →
    resolveState cs.newMap fuel id = some (fullOf id)

/-- Invariant of the Level Engine run used for the depth-bound theorem. -/
structure DepthInv {K V : Type} (processed : List Int)
    (cs : CompressorState K V) : Prop where
  ids_eq : cs.newMap.map Prod.fst = processed.reverse
  lens : ∀ l ∈ cs.levels, l.currentLength ≤ max l.maxLength 1
  depths : ∀ fuel, cs.newMap.length < fuel →
    HeadsDepth cs.newMap fuel cs.levels
  alls : ∀ id ∈ processed, ∀ fuel, cs.newMap.length < fuel →
    ∃ d, chainDepth cs.newMap fuel id = some d ∧
      d ≤ max 1 (levelsCapSum cs.levels)

/-! ## The error taxonomy

Translated from `src/errors.rs` (`StateCompressorError`): group ids are
`i64`, the mismatch variant carries the offending group id and both boxed
`StateMap`s, and `ExpectedStateMismatched` wraps a boxed instance of the same
error kind.  The variant names follow the source (including the
`Missmatched` spelling). -/

/-- `StateCompressorError`, from `src/errors.rs`. -/
inductive StateCompressorError (K V : Type) where
  | missingStateGroup : Int → StateCompressorError K V
  | missingPrevStateGroup : Int → StateCompressorError K V
  | stateMissmatchedForGroup :
      Int → StateMap K V → StateMap K V → StateCompressorError K V
  | expectedStateMismatched :
      StateCompressorError K V → StateCompressorError K V

/-- The error kinds named by the specification's taxonomy (§7), including the
`StoreUnavailable` kind the spec describes for transient transport faults. -/
inductive SpecErrorKind where
  | missingStateGroup
  | missingPrevStateGroup
  | stateMismatchedForGroup
  | expectedStateMismatched
  | storeUnavailable
  deriving DecidableEq, Repr

/-- Classify a code error value by the taxonomy kind it belongs to. -/
def StateCompressorError.kind {K V : Type} :
    StateCompressorError K V → SpecErrorKind
  | .missingStateGroup _ => .missingStateGroup
  | .missingPrevStateGroup _ => .missingPrevStateGroup
  | .stateMissmatchedForGroup _ _ _ => .stateMismatchedForGroup
  | .expectedStateMismatched _ => .expectedStateMismatched

/-- Nesting depth of the self-wrapping `ExpectedStateMismatched` variant:
the number of wrappers that must be unwrapped to reach a base error. -/
def errDepth {K V : Type} : StateCompressorError K V → Nat
  | .expectedStateMismatched e => errDepth e + 1
  | _ => 0

/-! ## The Verifier

Modelled from the spec: §4.3 — for every group id touched in a chunk,
independently resolve full state through the original store and through the
rewritten store and assert equality of the two `StateMap`s; fail on the first
mismatch with a structured fault carrying the group id and both maps, and
with `MissingStateGroup` when a resolution walk hits a dangling link. -/

/-- Verify a chunk: compare original and rewritten full state for every
touched group id, oldest first. -/
def verifyChunk {K V : Type} [DecidableEq (StateMap K V)]
    (orig rewritten : GroupStore K V) (fuel : Nat) :
    List Int → Except (StateCompressorError K V) Unit
  | [] => .ok ()
  | id :: rest =>
    match resolveState orig fuel id, resolveState rewritten fuel id with
    | some e, some f =>
      if e = f then verifyChunk orig rewritten fuel rest
      else .error (.stateMissmatchedForGroup id e f)
    | _, _ => .error (.missingStateGroup id)

/-- Modelled from the spec: the bounded transitive check behind the
self-wrapping error (§7, §9 — `lib.rs` is not in the snapshot).  When a
group's states mismatch, the dependent (predecessor) group is checked
transitively, a discovered nested fault being wrapped in
`ExpectedStateMismatched`; the recursion carries an explicit depth cap
equal to the configured chain-depth bound. -/
def checkGroupTransitive {K V : Type} [DecidableEq (StateMap K V)]
    (orig rewritten : GroupStore K V) (fuel : Nat) :
    Nat → Int → Except (StateCompressorError K V) Unit
  | 0, _ => .ok ()
  | cap + 1, id =>
    match resolveState orig fuel id, resolveState rewritten fuel id with
    | some e, some f =>
      if e = f then .ok ()
      else
        match lookupGroup rewritten id with
        | none => .error (.missingStateGroup id)
        | some row =>
          match row.prevStateGroup with
          | none => .error (.stateMissmatchedForGroup id e f)
          | some p =>
            match checkGroupTransitive orig rewritten fuel cap p with
            | .error sub => .error (.expectedStateMismatched sub)
            | .ok () => .error (.stateMissmatchedForGroup id e f)
    | _, _ => .error (.missingStateGroup id)

/-! ## The Chunk Manager

Modelled from the spec: §4.4 — per chunk: fetch, compress, verify, check for
a net size reduction, and either commit (rewrite the touched rows and advance
the room's cursor, atomically) or skip (leave the durable state untouched and
continue with the next chunk).  Sizes count rows of `state_groups_state`,
i.e. one row per key of each stored delta; counting requires an enumerable
key type. -/

/-- The number of rows a single state map occupies in the store. -/
def mapSize {K V : Type} [Fintype K] [DecidableEq K] (m : StateMap K V) : Nat :=
  (Finset.univ.filter fun k => (m k).isSome).card

/-- Total number of rows occupied by the deltas of a whole store. -/
def storeRows {K V : Type} [Fintype K] [DecidableEq K] (s : GroupStore K V) : Nat :=
  (s.map fun r => mapSize r.2.stateMap).sum

/-- Number of rows occupied by the listed groups in the given store. -/
def chunkRows {K V : Type} [Fintype K] [DecidableEq K]
    (store : GroupStore K V) (ids : List Int) : Nat :=
  (ids.map fun id =>
    match lookupGroup store id with
    | some row => mapSize row.stateMap
    | none => 0).sum

/-- The durable per-room state: the state-group store and the progress
cursor (`none` before any chunk has been committed). -/
structure RoomState (K V : Type) where
  store : GroupStore K V
  cursor : Option Int

/-- Fuel ample for every resolution walk during one chunk: the store rows
plus the chunk's newly minted rows. -/
def chunkFuel {K V : Type} (rs : RoomState K V) (ids : List Int) : Nat :=
  rs.store.length + ids.length + 1

/-- The Level Engine's output for one chunk, starting from fresh levels with
the configured maximum sizes. -/
def chunkCompressed {K V : Type} [DecidableEq V] (caps : List Nat)
    (rs : RoomState K V) (ids : List Int) : CompressorState K V :=
  runEngine
    (fun id => (resolveState rs.store (chunkFuel rs ids) id).getD emptyMap)
    ⟨caps.map Level.new, []⟩ ids

/-- The verification outcome for one chunk. -/
def chunkVerify {K V : Type} [DecidableEq V] [DecidableEq (StateMap K V)]
    (caps : List Nat) (rs : RoomState K V) (ids : List Int) :
    Except (StateCompressorError K V) Unit :=
  verifyChunk rs.store (chunkCompressed caps rs ids).newMap (chunkFuel rs ids) ids

/-- Remove the rows of the listed group ids from a store. -/
def removeIds {K V : Type} (ids : List Int) (s : GroupStore K V) : GroupStore K V :=
  s.filter fun r => !ids.contains r.1

/-- Modelled from the spec: process one chunk (§4.4) — compress, verify,
check for a net size reduction; commit the rewrite and advance the cursor
only when verification succeeds and the rewrite is strictly smaller,
otherwise skip the chunk leaving the durable state untouched. -/
def processChunk {K V : Type} [Fintype K] [DecidableEq K] [DecidableEq V]
    [DecidableEq (StateMap K V)] (caps : List Nat) (rs : RoomState K V)
    (ids : List Int) : RoomState K V :=
  let cs := chunkCompressed caps rs ids
  match chunkVerify caps rs ids with
  | .error _ => rs
  | .ok () =>
    if storeRows cs.newMap < chunkRows rs.store ids then
      { store := cs.newMap ++ removeIds ids rs.store
        cursor := match ids.getLast? with
          | some last => some last
          | none => rs.cursor }
    else rs

/-- Modelled from the spec: process a run's chunks in order (§4.4); a skipped
chunk simply falls through to the next one. -/
def processChunks {K V : Type} [Fintype K] [DecidableEq K] [DecidableEq V]
    [DecidableEq (StateMap K V)] (caps : List Nat) (rs : RoomState K V) :
    List (List Int) → RoomState K V
  | [] => rs
  | c :: rest => processChunks caps (processChunk caps rs c) rest

/-! ## Level configuration parsing

Translated from `LevelInfo::from_str` in
`synapse_auto_compressor/src/main.rs`: split the input on commas, parse each
segment as a `usize` (optional leading `+`, one or more decimal digits, value
within the 64-bit range), and build `Level::new` for each parsed size; any
segment that fails to parse yields the fixed error string. -/

/-- Split a character list at every comma, mirroring Rust's
`str::split(',')` (the result always has at least one, possibly empty,
segment). -/
def splitComma : List Char → List (List Char)
  | [] => [[]]
  | c :: cs =>
    if c = ',' then [] :: splitComma cs
    else
      match splitComma cs with
      | [] => [[c]]
      | seg :: rest => (c :: seg) :: rest

/-- The numeric value of a decimal digit character. -/
def charToDigit (c : Char) : Option Nat :=
  if '0' ≤ c ∧ c ≤ '9' then some (c.toNat - '0'.toNat) else none

/-- Accumulate decimal digits most-significant-first. -/
def parseDigitsAux (acc : Nat) : List Char → Option Nat
  | [] => some acc
  | c :: cs =>
    match charToDigit c with
    | some d => parseDigitsAux (acc * 10 + d) cs
    | none => none

/-- Parse a nonempty all-digit character list. -/
def parseNatDigits : List Char → Option Nat
  | [] => none
  | c :: cs => parseDigitsAux 0 (c :: cs)

/-- Rust's `usize::from_str`: an optional leading `+`, then one or more
decimal digits; values outside the 64-bit `usize` range overflow to `Err`. -/
def parseUsize (cs : List Char) : Option Nat :=
  let body : List Char := match cs with
    | [] => []
    | c :: rest => if c = '+' then rest else c :: rest
  match parseNatDigits body with
  | some n => if n < 2 ^ 64 then some n else none
  | none => none

/-- The error string of `LevelInfo::from_str`. -/
def levelParseError : String := "Not a comma separated list of numbers"

/-- Parse every comma segment in order, building a level per parsed size;
the first failing segment aborts with the fixed error string. -/
def parseLevels : List (List Char) → Except String (List Level)
  | [] => .ok []
  | seg :: rest =>
    match parseUsize seg with
    | none => .error levelParseError
    | some n =>
      match parseLevels rest with
      | .ok ls => .ok (Level.new n :: ls)
      | .error e => .error e

/-- `LevelInfo::from_str` over the input's character list. -/
def levelInfoFromStr (s : List Char) : Except String (List Level) :=
  parseLevels (splitComma s)

/-- Render a natural number as its decimal digit characters. -/
def encodeNat (n : Nat) : List Char :=
  if n = 0 then ['0'] else (Nat.digits 10 n).reverse.map Nat.digitChar

/-- Join segments with a single comma between consecutive segments. -/
def joinComma : List (List Char) → List Char
  | [] => []
  | [p] => p
  | p :: q :: rest => p ++ ',' :: joinComma (q :: rest)

/-- The comma-separated decimal rendering of a list of numbers. -/
def encodeNatList (ns : List Nat) : List Char :=
  joinComma (ns.map encodeNat)

/-! ## Bootstrap of the progress/resume store

Modelled from the spec: `create_tables_if_needed` (§6 Bootstrap;
`state_saving.rs` is not in the snapshot) ensures the two durable records —
the serialized compressor state and the per-room progress — exist, creating
an empty table only where one is absent (idempotent schema creation, `CREATE
TABLE IF NOT EXISTS` semantics). -/

/-- Create one table if absent, keeping any existing contents. -/
def createTable {R : Type} : Option (List R) → Option (List R)
  | none => some []
  | some rows => some rows

/-- The database schema state: the two tables this tool adds, each either
absent or holding its rows. -/
structure SchemaState (A B : Type) where
  compressorStateTable : Option (List A)
  compressorProgressTable : Option (List B)

/-- Modelled from the spec: `create_tables_if_needed` — ensure both tables
exist, touching nothing that is already there. -/
def create_tables_if_needed {A B : Type} (s : SchemaState A B) : SchemaState A B :=
  { compressorStateTable := createTable s.compressorStateTable
    compressorProgressTable := createTable s.compressorProgressTable }

/-! # Theorems -/

/-! ## StateMap algebra -/

theorem applyDelta_emptyMap {K V : Type} (d : StateMap K V) :
    applyDelta emptyMap d = d := by
  funext k
  simp only [applyDelta, emptyMap]
  cases d k <;> rfl

theorem applyDelta_getDelta {K V : Type} [DecidableEq V]
    (base target : StateMap K V) (h : DomLe base target) :
    applyDelta base (getDelta base target) = target := by
  funext k
  simp only [applyDelta, getDelta]
  by_cases heq : target k = base k
  · rw [if_pos heq]; exact heq.symm
  · rw [if_neg heq]
    cases ht : target k with
    | some v => rfl
    | none =>
      have : base k = none := by
        by_contra hb
        exact (ht ▸ h k hb) rfl
      exact absurd (ht.trans this.symm) heq

theorem domLe_refl {K V : Type} (m : StateMap K V) : DomLe m m := fun _ h => h

theorem domLe_applyDelta {K V : Type} (base d : StateMap K V) :
    DomLe base (applyDelta base d) := by
  intro k hk
  simp only [applyDelta]
  cases d k with
  | some v => simp
  | none => exact hk

theorem domLe_trans {K V : Type} {m₁ m₂ m₃ : StateMap K V}
    (h₁ : DomLe m₁ m₂) (h₂ : DomLe m₂ m₃) : DomLe m₁ m₃ :=
  fun k hk => h₂ k (h₁ k hk)

theorem foldFull_append {K V : Type} (xs ys : List (Int × StateMap K V)) :
    foldFull (xs ++ ys) = ys.foldl (fun acc x => applyDelta acc x.2) (foldFull xs) := by
  simp [foldFull, List.foldl_append]

theorem domLe_foldl_deltas {K V : Type} (ys : List (Int × StateMap K V)) :
    ∀ acc : StateMap K V,
      DomLe acc (ys.foldl (fun acc x => applyDelta acc x.2) acc) := by
  induction ys with
  | nil => intro acc; exact domLe_refl acc
  | cons y ys ih =>
    intro acc
    exact domLe_trans (domLe_applyDelta acc y.2) (ih (applyDelta acc y.2))

theorem domLe_foldFull_prefix {K V : Type} (xs ys : List (Int × StateMap K V)) :
    DomLe (foldFull xs) (foldFull (xs ++ ys)) := by
  rw [foldFull_append]
  exact domLe_foldl_deltas ys (foldFull xs)

/-! ## Store lookups and walk stability -/

theorem lookupGroup_mem {K V : Type} :
    ∀ (s : GroupStore K V) (id : Int) (r : StateGroupRow K V),
      lookupGroup s id = some r → (id, r) ∈ s := by
  intro s
  induction s with
  | nil => intro id r h; simp [lookupGroup] at h
  | cons pr rest ih =>
    intro id r h
    obtain ⟨i, r'⟩ := pr
    rw [lookupGroup] at h
    by_cases hi : i = id
    · rw [if_pos hi] at h
      injection h with h
      subst hi; subst h
      exact List.mem_cons_self _ _
    · rw [if_neg hi] at h
      exact List.mem_cons_of_mem _ (ih id r h)

theorem lookupGroup_mem_fst {K V : Type} (s : GroupStore K V) (id : Int)
    (r : StateGroupRow K V) (h : lookupGroup s id = some r) :
    id ∈ s.map Prod.fst :=
  List.mem_map.mpr ⟨(id, r), lookupGroup_mem s id r h, rfl⟩

theorem lookupGroup_isSome_of_mem {K V : Type} :
    ∀ (s : GroupStore K V) (id : Int), id ∈ s.map Prod.fst →
      ∃ r, lookupGroup s id = some r := by
  intro s
  induction s with
  | nil => intro id h; simp at h
  | cons pr rest ih =>
    intro id h
    obtain ⟨i, r'⟩ := pr
    by_cases hi : i = id
    · exact ⟨r', by rw [lookupGroup, if_pos hi]⟩
    · simp only [List.map_cons, List.mem_cons] at h
      rcases h with h | h
      · exact absurd h.symm hi
      · obtain ⟨r, hr⟩ := ih id h
        exact ⟨r, by rw [lookupGroup, if_neg hi]; exact hr⟩

theorem lookupGroup_append_left {K V : Type} :
    ∀ (s t : GroupStore K V) (id : Int) (r : StateGroupRow K V),
      lookupGroup s id = some r → lookupGroup (s ++ t) id = some r := by
  intro s t
  induction s with
  | nil => intro id r h; simp [lookupGroup] at h
  | cons pr rest ih =>
    intro id r h
    obtain ⟨i, r'⟩ := pr
    rw [lookupGroup] at h
    rw [List.cons_append, lookupGroup]
    by_cases hi : i = id
    · rwa [if_pos hi] at h ⊢
    · rw [if_neg hi] at h ⊢
      exact ih id r h

theorem lookupGroup_append_right {K V : Type} :
    ∀ (s t : GroupStore K V) (id : Int),
      id ∉ s.map Prod.fst → lookupGroup (s ++ t) id = lookupGroup t id := by
  intro s t
  induction s with
  | nil => intro id _; rfl
  | cons pr rest ih =>
    intro id h
    obtain ⟨i, r'⟩ := pr
    simp only [List.map_cons, List.mem_cons, not_or] at h
    rw [List.cons_append, lookupGroup, if_neg (fun hi => h.1 hi.symm)]
    exact ih id h.2

theorem resolveState_append_stable {K V : Type} (s t : GroupStore K V) :
    ∀ (fuel : Nat) (id : Int) (x : StateMap K V),
      resolveState s fuel id = some x → resolveState (s ++ t) fuel id = some x := by
  intro fuel
  induction fuel with
  | zero => intro id x h; simp [resolveState] at h
  | succ fuel ih =>
    intro id x h
    rw [resolveState] at h ⊢
    cases hl : lookupGroup s id with
    | none => rw [hl] at h; simp at h
    | some row =>
      rw [hl] at h
      rw [lookupGroup_append_left s t id row hl]
      dsimp only at h ⊢
      cases hp : row.prevStateGroup with
      | none => rw [hp] at h; exact h
      | some p =>
        rw [hp] at h
        dsimp only at h ⊢
        simp only [Option.map_eq_some'] at h ⊢
        obtain ⟨base, hbase, hx⟩ := h
        exact ⟨base, ih p base hbase, hx⟩

theorem resolveState_cons_fresh {K V : Type} (m : GroupStore K V)
    (sg : Int) (row : StateGroupRow K V) (hfresh : sg ∉ m.map Prod.fst) :
    ∀ (fuel : Nat) (id : Int) (x : StateMap K V),
      resolveState m fuel id = some x →
      resolveState ((sg, row) :: m) fuel id = some x := by
  intro fuel
  induction fuel with
  | zero => intro id x h; simp [resolveState] at h
  | succ fuel ih =>
    intro id x h
    rw [resolveState] at h ⊢
    cases hl : lookupGroup m id with
    | none => rw [hl] at h; simp at h
    | some r =>
      rw [hl] at h
      have hid : id ∈ m.map Prod.fst := lookupGroup_mem_fst m id r hl
      have hne : ¬ sg = id := fun hsg => hfresh (hsg ▸ hid)
      rw [lookupGroup, if_neg hne, hl]
      dsimp only at h ⊢
      cases hp : r.prevStateGroup with
      | none => rw [hp] at h; exact h
      | some p =>
        rw [hp] at h
        dsimp only at h ⊢
        simp only [Option.map_eq_some'] at h ⊢
        obtain ⟨base, hbase, hx⟩ := h
        exact ⟨base, ih p base hbase, hx⟩

theorem chainDepth_cons_fresh {K V : Type} (m : GroupStore K V)
    (sg : Int) (row : StateGroupRow K V) (hfresh : sg ∉ m.map Prod.fst) :
    ∀ (fuel : Nat) (id : Int) (d : Nat),
      chainDepth m fuel id = some d →
      chainDepth ((sg, row) :: m) fuel id = some d := by
  intro fuel
  induction fuel with
  | zero => intro id d h; simp [chainDepth] at h
  | succ fuel ih =>
    intro id d h
    rw [chainDepth] at h ⊢
    cases hl : lookupGroup m id with
    | none => rw [hl] at h; simp at h
    | some r =>
      rw [hl] at h
      have hid : id ∈ m.map Prod.fst := lookupGroup_mem_fst m id r hl
      have hne : ¬ sg = id := fun hsg => hfresh (hsg ▸ hid)
      rw [lookupGroup, if_neg hne, hl]
      dsimp only at h ⊢
      cases hp : r.prevStateGroup with
      | none => rw [hp] at h; exact h
      | some p =>
        rw [hp] at h
        dsimp only at h ⊢
        simp only [Option.map_eq_some'] at h ⊢
        obtain ⟨d', hd', hx⟩ := h
        exact ⟨d', ih p d' hd', hx⟩

/-! ## Linear chains resolve to their delta folds -/

theorem chainStoreAux_map_fst {K V : Type} :
    ∀ (xs : List (Int × StateMap K V)) (p : Option Int),
      (chainStoreAux p xs).map Prod.fst = xs.map Prod.fst := by
  intro xs
  induction xs with
  | nil => intro p; rfl
  | cons x rest ih =>
    intro p
    obtain ⟨i, d⟩ := x
    simp only [chainStoreAux, List.map_cons, ih]

theorem lastIdOr_cons {K V : Type} (p : Option Int) (i : Int)
    (d : StateMap K V) (xs : List (Int × StateMap K V)) :
    lastIdOr p ((i, d) :: xs) = lastIdOr (some i) xs := rfl

theorem lastIdOr_append_singleton {K V : Type} (p : Option Int)
    (xs : List (Int × StateMap K V)) (j : Int) (e : StateMap K V) :
    lastIdOr p (xs ++ [(j, e)]) = some j := by
  simp [lastIdOr, List.foldl_append]

theorem chainStoreAux_append {K V : Type} :
    ∀ (xs ys : List (Int × StateMap K V)) (p : Option Int),
      chainStoreAux p (xs ++ ys) =
        chainStoreAux p xs ++ chainStoreAux (lastIdOr p xs) ys := by
  intro xs
  induction xs with
  | nil => intro ys p; rfl
  | cons x rest ih =>
    intro ys p
    obtain ⟨i, d⟩ := x
    show (i, ⟨p, d⟩) :: chainStoreAux (some i) (rest ++ ys) =
      (i, ⟨p, d⟩) ::
        (chainStoreAux (some i) rest ++ chainStoreAux (lastIdOr (some i) rest) ys)
    rw [ih ys (some i)]

theorem chainStoreAux_closed {K V : Type} :
    ∀ (xs : List (Int × StateMap K V)) (p : Option Int) (S : List Int),
      (∀ q, p = some q → q ∈ S) → (∀ i ∈ xs.map Prod.fst, i ∈ S) →
      ∀ pr ∈ chainStoreAux p xs, ∀ q, (Prod.snd pr).prevStateGroup = some q →
        q ∈ S := by
  intro xs
  induction xs with
  | nil => intro p S _ _ pr hpr; simp [chainStoreAux] at hpr
  | cons x rest ih =>
    intro p S hp hids pr hpr q hq
    obtain ⟨i, d⟩ := x
    simp only [chainStoreAux, List.mem_cons] at hpr
    rcases hpr with hpr | hpr
    · subst hpr
      exact hp q hq
    · refine ih (some i) S ?_ ?_ pr hpr q hq
      · intro q' hq'
        injection hq' with hq'
        exact hq' ▸ hids i (by simp)
      · intro i' hi'
        exact hids i' (by simp [hi'])

theorem chainStore_closed {K V : Type} (chain : List (Int × StateMap K V)) :
    StoreClosed (chainStore chain) := by
  intro pr hpr q hq
  rw [chainStore, chainStoreAux_map_fst]
  exact chainStoreAux_closed chain none (chain.map Prod.fst)
    (fun q' hq' => by simp at hq') (fun i hi => hi) pr hpr q hq

theorem lookupGroup_chainStore {K V : Type}
    (chain pre post : List (Int × StateMap K V)) (i : Int) (d : StateMap K V)
    (hnd : (chain.map Prod.fst).Nodup) (hchain : chain = pre ++ (i, d) :: post) :
    lookupGroup (chainStore chain) i = some ⟨lastIdOr none pre, d⟩ := by
  subst hchain
  rw [chainStore, chainStoreAux_append]
  have hnotpre : i ∉ pre.map Prod.fst := by
    rw [List.map_append] at hnd
    rcases List.nodup_append.mp hnd with ⟨_, _, hdisj⟩
    intro hmem
    exact hdisj hmem (by simp)
  have hnot : i ∉ (chainStoreAux (none : Option Int) pre).map Prod.fst := by
    rwa [chainStoreAux_map_fst]
  rw [lookupGroup_append_right _ _ i hnot]
  simp [chainStoreAux, lookupGroup]

theorem chain_resolve {K V : Type} (chain : List (Int × StateMap K V))
    (hnd : (chain.map Prod.fst).Nodup) :
    ∀ (pre : List (Int × StateMap K V)) (i : Int) (d : StateMap K V)
      (post : List (Int × StateMap K V)), chain = pre ++ (i, d) :: post →
      ∀ fuel, pre.length + 1 ≤ fuel →
        resolveState (chainStore chain) fuel i =
          some (foldFull (pre ++ [(i, d)])) := by
  intro pre
  induction pre using List.reverseRecOn with
  | nil =>
    intro i d post hchain fuel hfuel
    obtain ⟨f, rfl⟩ : ∃ f, fuel = f + 1 := ⟨fuel - 1, by omega⟩
    rw [resolveState, lookupGroup_chainStore chain [] post i d hnd hchain]
    show some d = some (foldFull ([] ++ [(i, d)]))
    rw [List.nil_append]
    have : foldFull [(i, d)] = applyDelta emptyMap d := rfl
    rw [this, applyDelta_emptyMap]
  | append_singleton pre' last ih =>
    intro i d post hchain fuel hfuel
    obtain ⟨j, e⟩ := last
    rw [List.length_append, List.length_singleton] at hfuel
    obtain ⟨fuel', rfl⟩ : ∃ fuel', fuel = fuel' + 1 := ⟨fuel - 1, by omega⟩
    have hfuel' : pre'.length + 1 ≤ fuel' := by omega
    rw [resolveState,
      lookupGroup_chainStore chain (pre' ++ [(j, e)]) post i d hnd hchain,
      lastIdOr_append_singleton]
    have hres : resolveState (chainStore chain) fuel' j =
        some (foldFull (pre' ++ [(j, e)])) := by
      refine ih j e ((i, d) :: post) ?_ fuel' hfuel'
      rw [hchain, List.append_assoc]
      rfl
    dsimp only
    rw [hres]
    have hff : foldFull (pre' ++ [(j, e)] ++ [(i, d)]) =
        applyDelta (foldFull (pre' ++ [(j, e)])) d := by
      rw [foldFull_append (pre' ++ [(j, e)]) [(i, d)]]
      rfl
    rw [hff]
    rfl

/-! ## The Level Engine: round trip -/

theorem updateLevels_prev (sg : Int) :
    ∀ ls : List Level, ∀ p, (updateLevels sg ls).1 = some p →
      ∃ l ∈ ls, l.head = some p := by
  intro ls
  induction ls with
  | nil => intro p h; simp [updateLevels] at h
  | cons l ls ih =>
    intro p h
    rw [updateLevels] at h
    by_cases hs : l.hasSpace = true
    · rw [if_pos hs] at h
      exact ⟨l, List.mem_cons_self _ _, h⟩
    · rw [if_neg hs] at h
      obtain ⟨l', hl', hh⟩ := ih p h
      exact ⟨l', List.mem_cons_of_mem _ hl', hh⟩

theorem updateLevels_heads (sg : Int) :
    ∀ ls : List Level, ∀ l' ∈ (updateLevels sg ls).2, ∀ h, l'.head = some h →
      h = sg ∨ ∃ l ∈ ls, l.head = some h := by
  intro ls
  induction ls with
  | nil => intro l' hl'; simp [updateLevels] at hl'
  | cons l ls ih =>
    intro l' hl' h hh
    rw [updateLevels] at hl'
    by_cases hs : l.hasSpace = true
    · rw [if_pos hs] at hl'
      dsimp only at hl'
      rcases List.mem_cons.mp hl' with rfl | hl'
      · left
        injection hh with hh
        exact hh.symm
      · right
        exact ⟨l', List.mem_cons_of_mem _ hl', hh⟩
    · rw [if_neg hs] at hl'
      dsimp only at hl'
      rcases List.mem_cons.mp hl' with rfl | hl'
      · left
        injection hh with hh
        exact hh.symm
      · rcases ih l' hl' h hh with hsg | ⟨l₀, hl₀, hh₀⟩
        · exact Or.inl hsg
        · exact Or.inr ⟨l₀, List.mem_cons_of_mem _ hl₀, hh₀⟩

theorem engine_step_inv {K V : Type} [DecidableEq V] (fullOf : Int → StateMap K V)
    (processed : List Int) (cs : CompressorState K V) (sg : Int)
    (hinv : EngineInv fullOf processed cs) (hfresh : sg ∉ processed)
    (hdom : ∀ p ∈ processed, DomLe (fullOf p) (fullOf sg)) :
    EngineInv fullOf (processed ++ [sg]) (compressorStep fullOf cs sg) := by
  have hfreshm : sg ∉ cs.newMap.map Prod.fst := by
    rw [hinv.ids_eq, List.mem_reverse]
    exact hfresh
  refine ⟨?_, ?_, ?_⟩
  · simp only [compressorStep, List.map_cons, hinv.ids_eq, List.reverse_append,
      List.reverse_singleton, List.singleton_append]
  · intro l' hl' h hh
    simp only [compressorStep] at hl'
    rcases updateLevels_heads sg cs.levels l' hl' h hh with rfl | ⟨l, hl, hlh⟩
    · exact List.mem_append.mpr (Or.inr (List.mem_singleton.mpr rfl))
    · exact List.mem_append.mpr (Or.inl (hinv.heads l hl h hlh))
  · intro id hid fuel hfuel
    simp only [compressorStep, List.length_cons] at hfuel ⊢
    rcases List.mem_append.mp hid with hid | hid
    · have hold := hinv.res id hid fuel (by omega)
      exact resolveState_cons_fresh cs.newMap sg _ hfreshm fuel id _ hold
    · rw [List.mem_singleton] at hid
      rw [hid]
      obtain ⟨f, rfl⟩ : ∃ f, fuel = f + 1 := ⟨fuel - 1, by omega⟩
      rw [resolveState, lookupGroup, if_pos rfl]
      cases hp : (updateLevels sg cs.levels).1 with
      | none => rfl
      | some p =>
        have hpmem : p ∈ processed := by
          obtain ⟨l, hl, hlh⟩ := updateLevels_prev sg cs.levels p hp
          exact hinv.heads l hl p hlh
        have hres : resolveState cs.newMap f p = some (fullOf p) :=
          hinv.res p hpmem f (by omega)
        show Option.map (fun base => applyDelta base (getDelta (fullOf p) (fullOf sg)))
            (resolveState
              ((sg, ⟨some p, getDelta (fullOf p) (fullOf sg)⟩) :: cs.newMap) f p) =
          some (fullOf sg)
        rw [resolveState_cons_fresh cs.newMap sg
          ⟨some p, getDelta (fullOf p) (fullOf sg)⟩ hfreshm f p (fullOf p) hres]
        show some (applyDelta (fullOf p) (getDelta (fullOf p) (fullOf sg))) =
          some (fullOf sg)
        rw [applyDelta_getDelta _ _ (hdom p hpmem)]

theorem engine_run_inv {K V : Type} [DecidableEq V] (fullOf : Int → StateMap K V) :
    ∀ (rest processed : List Int) (cs : CompressorState K V),
      EngineInv fullOf processed cs → (processed ++ rest).Nodup →
      List.Pairwise (fun a b => DomLe (fullOf a) (fullOf b)) (processed ++ rest) →
      EngineInv fullOf (processed ++ rest) (runEngine fullOf cs rest) := by
  intro rest
  induction rest with
  | nil =>
    intro processed cs hinv _ _
    rw [List.append_nil, runEngine]
    exact hinv
  | cons sg rest ih =>
    intro processed cs hinv hnd hpw
    have hfresh : sg ∉ processed := by
      rcases List.nodup_append.mp hnd with ⟨_, _, hdisj⟩
      intro hmem
      exact hdisj hmem (List.mem_cons_self _ _)
    have hdom : ∀ p ∈ processed, DomLe (fullOf p) (fullOf sg) := by
      rcases List.pairwise_append.mp hpw with ⟨_, _, hcross⟩
      intro p hp
      exact hcross p hp sg (List.mem_cons_self _ _)
    have hstep := engine_step_inv fullOf processed cs sg hinv hfresh hdom
    have heq : processed ++ sg :: rest = (processed ++ [sg]) ++ rest := by simp
    rw [heq] at hnd hpw ⊢
    rw [runEngine]
    exact ih (processed ++ [sg]) _ hstep hnd hpw

theorem chainFullOf_eq {K V : Type} (chain : List (Int × StateMap K V))
    (hnd : (chain.map Prod.fst).Nodup) (pre : List (Int × StateMap K V))
    (i : Int) (d : StateMap K V) (post : List (Int × StateMap K V))
    (hchain : chain = pre ++ (i, d) :: post) :
    chainFullOf chain i = foldFull (pre ++ [(i, d)]) := by
  have hlen : pre.length + 1 ≤ chain.length := by
    rw [hchain]
    simp only [List.length_append, List.length_cons]
    omega
  rw [chainFullOf, chain_resolve chain hnd pre i d post hchain chain.length hlen]
  rfl

theorem chainFullOf_getElem {K V : Type} (chain : List (Int × StateMap K V))
    (hnd : (chain.map Prod.fst).Nodup) (k : Nat) (hk : k < chain.length) :
    chainFullOf chain (chain[k].1) = foldFull (chain.take (k + 1)) := by
  have hchain : chain = chain.take k ++ chain[k] :: chain.drop (k + 1) := by
    conv_lhs => rw [← List.take_append_drop k chain]
    rw [List.drop_eq_getElem_cons hk]
  have htake : chain.take k ++ [chain[k]] = chain.take (k + 1) := by
    rw [List.take_succ, List.getElem?_eq_getElem hk]
    rfl
  rw [← htake]
  exact chainFullOf_eq chain hnd (chain.take k) chain[k].1 chain[k].2
    (chain.drop (k + 1)) (by simp only [Prod.mk.eta]; exact hchain)

theorem chain_pairwise_domle {K V : Type} (chain : List (Int × StateMap K V))
    (hnd : (chain.map Prod.fst).Nodup) :
    List.Pairwise (fun a b => DomLe (chainFullOf chain a) (chainFullOf chain b))
      (chain.map Prod.fst) := by
  rw [List.pairwise_iff_getElem]
  intro a b ha hb hab
  rw [List.length_map] at ha hb
  rw [List.getElem_map, List.getElem_map]
  rw [chainFullOf_getElem chain hnd a ha, chainFullOf_getElem chain hnd b hb]
  have hsplit : chain.take (b + 1) =
      chain.take (a + 1) ++ (chain.drop (a + 1)).take (b - a) := by
    rw [← List.take_add]
    congr 1
    omega
  rw [hsplit]
  exact domLe_foldFull_prefix _ _

/-- C1: for every chain of original state groups processed by the Level
Engine under any level configuration, resolving full state (walking
predecessor links and folding deltas oldest-to-newest) of every rewritten
state group equals resolving full state of the corresponding original group:
the rewritten chain and the original chain represent the same full state for
every group. -/
theorem c1_round_trip :
    ∀ (K V : Type) [DecidableEq V] (caps : List Nat)
      (chain : List (Int × StateMap K V)),
      (chain.map Prod.fst).Nodup →
      ∀ fuel, chain.length < fuel →
      ∀ sg ∈ chain.map Prod.fst,
        resolveState (runEngine (chainFullOf chain)
            ⟨caps.map Level.new, []⟩ (chain.map Prod.fst)).newMap fuel sg =
          resolveState (chainStore chain) fuel sg := by
  intro K V _ caps chain hnd fuel hfuel sg hsg
  have hinit : EngineInv (chainFullOf chain) []
      ⟨caps.map Level.new, ([] : GroupStore K V)⟩ := by
    refine ⟨rfl, ?_, ?_⟩
    · intro l hl h hh
      obtain ⟨c, _, rfl⟩ := List.mem_map.mp hl
      simp [Level.new] at hh
    · intro id hid
      simp at hid
  have hrun := engine_run_inv (chainFullOf chain) (chain.map Prod.fst) [] _
    hinit (by simpa using hnd) (by simpa using chain_pairwise_domle chain hnd)
  rw [List.nil_append] at hrun
  have hlen : (runEngine (chainFullOf chain)
      ⟨caps.map Level.new, ([] : GroupStore K V)⟩
      (chain.map Prod.fst)).newMap.length = chain.length := by
    have h1 := congrArg List.length hrun.ids_eq
    rwa [List.length_map, List.length_reverse, List.length_map] at h1
  have hnew := hrun.res sg hsg fuel (by rw [hlen]; exact hfuel)
  obtain ⟨pr, hpr, rfl⟩ := List.mem_map.mp hsg
  obtain ⟨pre, post, hchain⟩ := List.append_of_mem hpr
  obtain ⟨i, d⟩ := pr
  have horig := chain_resolve chain hnd pre i d post hchain fuel
    (by
      have hlc := congrArg List.length hchain
      simp only [List.length_append, List.length_cons] at hlc
      omega)
  have hfull := chainFullOf_eq chain hnd pre i d post hchain
  rw [hnew, horig, hfull]

theorem c1_round_trip_witness :
    resolveState (runEngine
        (chainFullOf [(1, fun k => if k = (0 : Fin 3) then some 1 else none),
          (2, fun k => if k = 1 then some 2 else none),
          (3, fun k => if k = 0 then some 3 else none),
          (4, fun k => if k = 2 then some 4 else none),
          (5, fun k => if k = 1 then some 5 else none)])
        ⟨[2, 2].map Level.new, []⟩
        (([(1, fun k => if k = (0 : Fin 3) then some 1 else none),
          (2, fun k => if k = 1 then some 2 else none),
          (3, fun k => if k = 0 then some 3 else none),
          (4, fun k => if k = 2 then some 4 else none),
          (5, fun k => if k = 1 then some 5 else none)] :
            List (Int × StateMap (Fin 3) Nat)).map Prod.fst)).newMap 6 5 =
      resolveState (chainStore
        [(1, fun k => if k = (0 : Fin 3) then some 1 else none),
          (2, fun k => if k = 1 then some 2 else none),
          (3, fun k => if k = 0 then some 3 else none),
          (4, fun k => if k = 2 then some 4 else none),
          (5, fun k => if k = 1 then some 5 else none)]) 6 5 :=
  c1_round_trip (Fin 3) Nat [2, 2] _ (by decide) 6 (by decide) 5 (by decide)

/-! ## The Level Engine: chain depth bound -/

theorem chainDepth_le_mono {K V : Type} (m : GroupStore K V) :
    ∀ (fuel fuel' : Nat), fuel ≤ fuel' → ∀ (id : Int) (d : Nat),
      chainDepth m fuel id = some d → chainDepth m fuel' id = some d := by
  intro fuel
  induction fuel with
  | zero => intro fuel' _ id d h; simp [chainDepth] at h
  | succ fuel ih =>
    intro fuel' hle id d h
    obtain ⟨f', rfl⟩ : ∃ f', fuel' = f' + 1 := ⟨fuel' - 1, by omega⟩
    rw [chainDepth] at h ⊢
    cases hl : lookupGroup m id with
    | none => rw [hl] at h; simp at h
    | some r =>
      rw [hl] at h
      dsimp only at h ⊢
      cases hp : r.prevStateGroup with
      | none => rw [hp] at h; exact h
      | some p =>
        rw [hp] at h
        dsimp only at h ⊢
        simp only [Option.map_eq_some'] at h ⊢
        obtain ⟨dp, hdp, hx⟩ := h
        exact ⟨dp, ih f' (by omega) p dp hdp, hx⟩

theorem headsDepth_transport {K V : Type} (m m₂ : GroupStore K V)
    (fuel fuel₂ : Nat)
    (htr : ∀ (id : Int) (d : Nat), chainDepth m fuel id = some d →
      chainDepth m₂ fuel₂ id = some d) :
    ∀ ls : List Level, HeadsDepth m fuel ls → HeadsDepth m₂ fuel₂ ls := by
  intro ls
  induction ls with
  | nil => intro _; trivial
  | cons l ls ih =>
    intro h
    refine ⟨fun hd hh => ?_, ih h.2⟩
    obtain ⟨d, hd', hb⟩ := h.1 hd hh
    exact ⟨d, htr hd d hd', hb⟩

theorem levelsLenSum_cons (l : Level) (ls : List Level) :
    levelsLenSum (l :: ls) = l.currentLength + levelsLenSum ls := by
  simp [levelsLenSum]

theorem levelsCapSum_cons (l : Level) (ls : List Level) :
    levelsCapSum (l :: ls) = max l.maxLength 1 + levelsCapSum ls := by
  simp [levelsCapSum]

theorem lenSum_le_capSum :
    ∀ ls : List Level, (∀ l ∈ ls, l.currentLength ≤ max l.maxLength 1) →
      levelsLenSum ls ≤ levelsCapSum ls := by
  intro ls
  induction ls with
  | nil => intro _; exact le_refl 0
  | cons l ls ih =>
    intro h
    rw [levelsLenSum_cons, levelsCapSum_cons]
    exact Nat.add_le_add (h l (List.mem_cons_self _ _))
      (ih fun l' hl' => h l' (List.mem_cons_of_mem _ hl'))

theorem updateLevels_capSum (sg : Int) :
    ∀ ls : List Level, levelsCapSum (updateLevels sg ls).2 = levelsCapSum ls := by
  intro ls
  induction ls with
  | nil => rfl
  | cons l ls ih =>
    rw [updateLevels]
    by_cases hs : l.hasSpace = true
    · rw [if_pos hs]
      simp [levelsCapSum_cons]
    · rw [if_neg hs]
      dsimp only
      rw [levelsCapSum_cons, levelsCapSum_cons, ih]

theorem updateLevels_lens (sg : Int) :
    ∀ ls : List Level, (∀ l ∈ ls, l.currentLength ≤ max l.maxLength 1) →
      ∀ l' ∈ (updateLevels sg ls).2, l'.currentLength ≤ max l'.maxLength 1 := by
  intro ls
  induction ls with
  | nil => intro _ l' hl'; simp [updateLevels] at hl'
  | cons l ls ih =>
    intro h l' hl'
    rw [updateLevels] at hl'
    by_cases hs : l.hasSpace = true
    · rw [if_pos hs] at hl'
      dsimp only at hl'
      rcases List.mem_cons.mp hl' with rfl | hl'
      · have : l.currentLength < l.maxLength := by
          simpa [Level.hasSpace] using hs
        simp only
        omega
      · exact h l' (List.mem_cons_of_mem _ hl')
    · rw [if_neg hs] at hl'
      dsimp only at hl'
      rcases List.mem_cons.mp hl' with rfl | hl'
      · simp only
        omega
      · exact ih (fun x hx => h x (List.mem_cons_of_mem _ hx)) l' hl'

theorem chainDepth_cons_self {K V : Type} (m : GroupStore K V) (sg : Int)
    (row : StateGroupRow K V) (fuel : Nat) :
    chainDepth ((sg, row) :: m) (fuel + 1) sg =
      match row.prevStateGroup with
      | none => some 1
      | some p => (chainDepth ((sg, row) :: m) fuel p).map (· + 1) := by
  rw [chainDepth, lookupGroup, if_pos rfl]

theorem chainDepth_cons_root {K V : Type} (m : GroupStore K V) (sg : Int)
    (row : StateGroupRow K V) (fuel : Nat) (hp : row.prevStateGroup = none) :
    chainDepth ((sg, row) :: m) (fuel + 1) sg = some 1 := by
  rw [chainDepth_cons_self, hp]

theorem chainDepth_cons_prev {K V : Type} (m : GroupStore K V) (sg : Int)
    (row : StateGroupRow K V) (fuel : Nat) (p : Int) (dp : Nat)
    (hp : row.prevStateGroup = some p) (hfresh : sg ∉ m.map Prod.fst)
    (hdp : chainDepth m fuel p = some dp) :
    chainDepth ((sg, row) :: m) (fuel + 1) sg = some (dp + 1) := by
  rw [chainDepth_cons_self, hp]
  dsimp only
  rw [chainDepth_cons_fresh m sg row hfresh fuel p dp hdp]
  rfl

theorem updateLevels_depth {K V : Type} (m : GroupStore K V) (sg : Int)
    (delta : StateMap K V) (hfresh : sg ∉ m.map Prod.fst) :
    ∀ (ls : List Level) (fuel : Nat),
      HeadsDepth m fuel ls →
      (∀ l ∈ ls, l.currentLength ≤ max l.maxLength 1) →
      HeadsDepth ((sg, ⟨(updateLevels sg ls).1, delta⟩) :: m) (fuel + 1)
          (updateLevels sg ls).2 ∧
        ∃ d, chainDepth ((sg, ⟨(updateLevels sg ls).1, delta⟩) :: m) (fuel + 1) sg
            = some d ∧
          d ≤ max 1 (levelsLenSum (updateLevels sg ls).2) ∧
          d ≤ max 1 (levelsCapSum ls) := by
  intro ls
  induction ls with
  | nil =>
    intro fuel _ _
    exact ⟨trivial, 1, chainDepth_cons_root m sg _ fuel rfl,
      le_max_left 1 _, le_max_left 1 _⟩
  | cons l ls ih =>
    intro fuel hH hlens
    obtain ⟨hHl, hHtail⟩ := hH
    by_cases hs : l.hasSpace = true
    · have hu1 : (updateLevels sg (l :: ls)).1 = l.head := by
        rw [updateLevels, if_pos hs]
      have hu2 : (updateLevels sg (l :: ls)).2 =
          { l with currentLength := l.currentLength + 1, head := some sg } :: ls := by
        rw [updateLevels, if_pos hs]
      have hspace : l.currentLength < l.maxLength := by
        simpa [Level.hasSpace] using hs
      have hlentail : levelsLenSum ls ≤ levelsCapSum ls :=
        lenSum_le_capSum ls (fun x hx => hlens x (List.mem_cons_of_mem _ hx))
      have hex : ∃ d, chainDepth
          ((sg, ⟨(updateLevels sg (l :: ls)).1, delta⟩) :: m) (fuel + 1) sg =
            some d ∧
          d ≤ l.currentLength + 1 + levelsLenSum ls ∧
          d ≤ max l.maxLength 1 + levelsCapSum ls := by
        cases hh : l.head with
        | none =>
          refine ⟨1, chainDepth_cons_root m sg _ fuel
            (by show (updateLevels sg (l :: ls)).1 = none; rw [hu1, hh]),
            by omega, ?_⟩
          have h1 := le_max_right l.maxLength 1
          omega
        | some hd =>
          obtain ⟨dh, hdh, hb⟩ := hHl hd hh
          refine ⟨dh + 1, chainDepth_cons_prev m sg _ fuel hd dh
            (by show (updateLevels sg (l :: ls)).1 = some hd; rw [hu1, hh])
            hfresh hdh, by omega, ?_⟩
          have h2 := le_max_left l.maxLength 1
          omega
      obtain ⟨d, hd, hb1, hb2⟩ := hex
      refine ⟨?_, d, hd, ?_, ?_⟩
      · rw [hu2]
        refine ⟨fun h hh => ?_, headsDepth_transport m _ fuel (fuel + 1)
          (fun id d' hd' => chainDepth_le_mono _ fuel (fuel + 1) (by omega) id d'
            (chainDepth_cons_fresh m sg _ hfresh fuel id d' hd')) ls hHtail⟩
        injection hh with hh
        subst hh
        refine ⟨d, hd, ?_⟩
        show d ≤ l.currentLength + 1 + levelsLenSum ls
        exact hb1
      · rw [hu2, levelsLenSum_cons]
        refine le_trans hb1 ?_
        exact le_max_right _ _
      · rw [levelsCapSum_cons]
        exact le_trans hb2 (le_max_right _ _)
    · have hu1 : (updateLevels sg (l :: ls)).1 = (updateLevels sg ls).1 := by
        rw [updateLevels, if_neg hs]
      have hu2 : (updateLevels sg (l :: ls)).2 =
          { l with currentLength := 1, head := some sg } ::
            (updateLevels sg ls).2 := by
        rw [updateLevels, if_neg hs]
      have hih := ih fuel hHtail (fun x hx => hlens x (List.mem_cons_of_mem _ hx))
      rw [← hu1] at hih
      obtain ⟨HD, d, hd, hb1, hb2⟩ := hih
      have hmax1 : ∀ x : Nat, max 1 x ≤ 1 + x := fun x => by
        rcases Nat.le_total 1 x with h | h <;> omega
      refine ⟨?_, d, hd, ?_, ?_⟩
      · rw [hu2]
        refine ⟨fun h hh => ?_, HD⟩
        injection hh with hh
        subst hh
        refine ⟨d, hd, ?_⟩
        show d ≤ 1 + levelsLenSum (updateLevels sg ls).2
        exact le_trans hb1 (hmax1 _)
      · rw [hu2, levelsLenSum_cons]
        show d ≤ max 1 (1 + levelsLenSum (updateLevels sg ls).2)
        exact le_trans (le_trans hb1 (hmax1 _)) (le_max_right _ _)
      · rw [levelsCapSum_cons]
        refine le_trans hb2 (le_trans (max_le ?_ ?_) (le_max_right _ _))
        · have h1 := le_max_right l.maxLength 1
          omega
        · omega

theorem depth_step {K V : Type} [DecidableEq V] (fullOf : Int → StateMap K V)
    (processed : List Int) (cs : CompressorState K V) (sg : Int)
    (hinv : DepthInv processed cs) (hfresh : sg ∉ processed) :
    DepthInv (processed ++ [sg]) (compressorStep fullOf cs sg) := by
  have hfreshm : sg ∉ cs.newMap.map Prod.fst := by
    rw [hinv.ids_eq, List.mem_reverse]
    exact hfresh
  refine ⟨?_, ?_, ?_, ?_⟩
  · simp only [compressorStep, List.map_cons, hinv.ids_eq, List.reverse_append,
      List.reverse_singleton, List.singleton_append]
  · intro l' hl'
    simp only [compressorStep] at hl'
    exact updateLevels_lens sg cs.levels hinv.lens l' hl'
  · intro fuel hfuel
    simp only [compressorStep, List.length_cons] at hfuel ⊢
    obtain ⟨f, rfl⟩ : ∃ f, fuel = f + 1 := ⟨fuel - 1, by omega⟩
    exact (updateLevels_depth cs.newMap sg _ hfreshm cs.levels f
      (hinv.depths f (by omega)) hinv.lens).1
  · intro id hid fuel hfuel
    simp only [compressorStep, List.length_cons] at hfuel ⊢
    have hcap : levelsCapSum (updateLevels sg cs.levels).2 =
        levelsCapSum cs.levels := updateLevels_capSum sg cs.levels
    rcases List.mem_append.mp hid with hid | hid
    · obtain ⟨d, hd, hb⟩ := hinv.alls id hid fuel (by omega)
      exact ⟨d, chainDepth_cons_fresh cs.newMap sg _ hfreshm fuel id d hd,
        by rw [hcap]; exact hb⟩
    · rw [List.mem_singleton] at hid
      rw [hid]
      obtain ⟨f, rfl⟩ : ∃ f, fuel = f + 1 := ⟨fuel - 1, by omega⟩
      obtain ⟨_, d, hd, _, hb2⟩ := updateLevels_depth cs.newMap sg _ hfreshm
        cs.levels f (hinv.depths f (by omega)) hinv.lens
      exact ⟨d, hd, by rw [hcap]; exact hb2⟩

theorem depth_run {K V : Type} [DecidableEq V] (fullOf : Int → StateMap K V) :
    ∀ (rest processed : List Int) (cs : CompressorState K V),
      DepthInv processed cs → (processed ++ rest).Nodup →
      DepthInv (processed ++ rest) (runEngine fullOf cs rest) := by
  intro rest
  induction rest with
  | nil =>
    intro processed cs hinv _
    rw [List.append_nil, runEngine]
    exact hinv
  | cons sg rest ih =>
    intro processed cs hinv hnd
    have hfresh : sg ∉ processed := by
      rcases List.nodup_append.mp hnd with ⟨_, _, hdisj⟩
      intro hmem
      exact hdisj hmem (List.mem_cons_self _ _)
    have hstep := depth_step fullOf processed cs sg hinv hfresh
    have heq : processed ++ sg :: rest = (processed ++ [sg]) ++ rest := by simp
    rw [heq] at hnd ⊢
    rw [runEngine]
    exact ih (processed ++ [sg]) _ hstep hnd

theorem headsDepth_levelNew {K V : Type} (m : GroupStore K V) (fuel : Nat) :
    ∀ caps : List Nat, HeadsDepth m fuel (caps.map Level.new) := by
  intro caps
  induction caps with
  | nil => trivial
  | cons c caps ih =>
    exact ⟨fun h hh => by simp [Level.new] at hh, ih⟩

theorem runEngine_capSum {K V : Type} [DecidableEq V] (fullOf : Int → StateMap K V) :
    ∀ (ids : List Int) (cs : CompressorState K V),
      levelsCapSum (runEngine fullOf cs ids).levels = levelsCapSum cs.levels := by
  intro ids
  induction ids with
  | nil => intro cs; rw [runEngine]
  | cons sg rest ih =>
    intro cs
    rw [runEngine, ih]
    show levelsCapSum (updateLevels sg cs.levels).2 = _
    exact updateLevels_capSum sg cs.levels

/-- C2 counterexample: under the (accepted at the public interface, cf. C10)
zero-capacity configuration `[0]`, processing a single group yields a
rewritten root group whose predecessor chain has length 1 — the spec's depth
notion, which counts the groups of the chain (§8 counts an uncompressed
5-group chain as depth 5) — exceeding the capacity sum 0. -/
theorem c2_depth_bound_counterexample :
    chainDepth (runEngine (fun _ => (emptyMap : StateMap (Fin 1) Nat))
        ⟨[0].map Level.new, []⟩ [5]).newMap 2 5 = some 1 ∧
      ¬ (1 ≤ ([0] : List Nat).sum) :=
  ⟨rfl, by decide⟩

/-- C2 (amended): for every configuration of at least one level whose
capacities are all positive, the predecessor chain (measured in groups, the
group itself and its root included, per §8) of every state group output by
compaction is bounded by the sum of the configured level capacities — even
when the coarsest level is only partially filled. -/
theorem c2_depth_bound :
    ∀ (K V : Type) [DecidableEq V] (caps : List Nat),
      caps ≠ [] → (∀ c ∈ caps, 1 ≤ c) →
      ∀ (fullOf : Int → StateMap K V) (ids : List Int), ids.Nodup →
      ∀ sg ∈ ids, ∀ fuel, ids.length < fuel →
        ∃ d, chainDepth (runEngine fullOf ⟨caps.map Level.new, []⟩ ids).newMap
            fuel sg = some d ∧ d ≤ caps.sum := by
  intro K V _ caps hne hpos fullOf ids hnd sg hsg fuel hfuel
  have hinit : DepthInv [] ⟨caps.map Level.new, ([] : GroupStore K V)⟩ := by
    refine ⟨rfl, ?_, ?_, ?_⟩
    · intro l hl
      obtain ⟨c, _, rfl⟩ := List.mem_map.mp hl
      simp [Level.new]
    · intro fuel _
      exact headsDepth_levelNew [] fuel caps
    · intro id hid
      simp at hid
  have hrun := depth_run fullOf ids [] _ hinit (by simpa using hnd)
  rw [List.nil_append] at hrun
  have hlen : (runEngine fullOf ⟨caps.map Level.new, ([] : GroupStore K V)⟩
      ids).newMap.length = ids.length := by
    have h1 := congrArg List.length hrun.ids_eq
    rwa [List.length_map, List.length_reverse] at h1
  obtain ⟨d, hd, hb⟩ := hrun.alls sg hsg fuel (by rw [hlen]; exact hfuel)
  refine ⟨d, hd, ?_⟩
  have hcs := runEngine_capSum fullOf ids ⟨caps.map Level.new, ([] : GroupStore K V)⟩
  rw [hcs] at hb
  have h2 : levelsCapSum (caps.map Level.new) = caps.sum := by
    have hmm : (caps.map Level.new).map (fun l => max l.maxLength 1) =
        caps.map (fun c => max c 1) := by
      rw [List.map_map]
      rfl
    rw [levelsCapSum, hmm]
    have h3 : caps.map (fun c => max c 1) = caps.map id :=
      List.map_congr_left (fun c hc => Nat.max_eq_left (hpos c hc))
    rw [h3, List.map_id]
  rw [h2] at hb
  have h4 : 1 ≤ caps.sum := by
    obtain ⟨c, rest, rfl⟩ := List.exists_cons_of_ne_nil hne
    have hc := hpos c (List.mem_cons_self _ _)
    rw [List.sum_cons]
    omega
  rwa [Nat.max_eq_right h4] at hb

theorem c2_depth_bound_witness :
    ∃ d, chainDepth (runEngine (fun _ => (emptyMap : StateMap (Fin 1) Nat))
        ⟨[2, 2].map Level.new, []⟩ [1, 2, 3, 4, 5]).newMap 6 5 = some d ∧
      d ≤ ([2, 2] : List Nat).sum :=
  c2_depth_bound (Fin 1) Nat [2, 2] (by decide) (by decide)
    (fun _ => emptyMap) [1, 2, 3, 4, 5] (by decide) 5 (by decide) 6 (by decide)

/-! ## Parsing the level configuration -/

theorem splitComma_no_comma : ∀ p : List Char, ',' ∉ p → splitComma p = [p] := by
  intro p
  induction p with
  | nil => intro _; rfl
  | cons c cs ih =>
    intro h
    have hc : ¬ c = ',' := fun hc => h (hc ▸ List.mem_cons_self c cs)
    have hcs : ',' ∉ cs := fun hm => h (List.mem_cons_of_mem c hm)
    simp only [splitComma, if_neg hc, ih hcs]

theorem splitComma_append_comma :
    ∀ p t : List Char, ',' ∉ p → splitComma (p ++ ',' :: t) = p :: splitComma t := by
  intro p
  induction p with
  | nil => intro t _; simp [splitComma]
  | cons c cs ih =>
    intro t h
    have hc : ¬ c = ',' := fun hc => h (hc ▸ List.mem_cons_self c cs)
    have hcs : ',' ∉ cs := fun hm => h (List.mem_cons_of_mem c hm)
    simp only [List.cons_append, splitComma, if_neg hc, List.append_eq, ih t hcs]

theorem splitComma_joinComma :
    ∀ parts : List (List Char), parts ≠ [] → (∀ p ∈ parts, ',' ∉ p) →
      splitComma (joinComma parts) = parts := by
  intro parts
  induction parts with
  | nil => intro h; exact absurd rfl h
  | cons p rest ih =>
    intro _ hall
    cases rest with
    | nil => exact splitComma_no_comma p (hall p (List.mem_singleton.mpr rfl))
    | cons q rest' =>
      have hp : ',' ∉ p := hall p (List.mem_cons_self _ _)
      have : joinComma (p :: q :: rest') = p ++ ',' :: joinComma (q :: rest') := rfl
      rw [this, splitComma_append_comma p _ hp,
        ih (List.cons_ne_nil q rest') (fun x hx => hall x (List.mem_cons_of_mem p hx))]

theorem charToDigit_digitChar : ∀ d : Nat, d < 10 →
    charToDigit (Nat.digitChar d) = some d := by
  intro d hd
  interval_cases d <;> decide

theorem digitChar_ne_comma : ∀ d : Nat, d < 10 → Nat.digitChar d ≠ ',' := by
  intro d hd
  interval_cases d <;> decide

theorem digitChar_ne_plus : ∀ d : Nat, d < 10 → Nat.digitChar d ≠ '+' := by
  intro d hd
  interval_cases d <;> decide

theorem parseDigitsAux_digitChars :
    ∀ (ds : List Nat) (acc : Nat), (∀ d ∈ ds, d < 10) →
      parseDigitsAux acc (ds.map Nat.digitChar) =
        some (ds.foldl (fun a d => a * 10 + d) acc) := by
  intro ds
  induction ds with
  | nil => intro acc _; rfl
  | cons d rest ih =>
    intro acc h
    have hd : d < 10 := h d (List.mem_cons_self _ _)
    simp only [List.map_cons, parseDigitsAux, charToDigit_digitChar d hd,
      List.foldl_cons]
    exact ih _ (fun x hx => h x (List.mem_cons_of_mem d hx))

theorem foldl_msd_eq :
    ∀ (ds : List Nat) (acc : Nat),
      ds.foldl (fun a d => a * 10 + d) acc =
        acc * 10 ^ ds.length + Nat.ofDigits 10 ds.reverse := by
  intro ds
  induction ds with
  | nil => intro acc; simp [Nat.ofDigits]
  | cons d rest ih =>
    intro acc
    simp only [List.foldl_cons, ih, List.reverse_cons, Nat.ofDigits_append,
      List.length_cons, List.length_reverse]
    simp [Nat.ofDigits, pow_succ]
    ring

theorem encodeNat_all_digits :
    ∀ (n : Nat) (c : Char), c ∈ encodeNat n → ∃ d, d < 10 ∧ c = Nat.digitChar d := by
  intro n c hc
  by_cases h : n = 0
  · subst h
    have h0 : encodeNat 0 = ['0'] := rfl
    rw [h0] at hc
    simp only [List.mem_singleton] at hc
    exact ⟨0, by omega, hc⟩
  · simp only [encodeNat, if_neg h, List.mem_map, List.mem_reverse] at hc
    obtain ⟨d, hd, hcd⟩ := hc
    exact ⟨d, Nat.digits_lt_base (by omega) hd, hcd.symm⟩

theorem encodeNat_ne_nil : ∀ n : Nat, encodeNat n ≠ [] := by
  intro n
  by_cases h : n = 0
  · subst h; decide
  · have hne : Nat.digits 10 n ≠ [] := Nat.digits_ne_nil_iff_ne_zero.mpr h
    simp only [encodeNat, if_neg h]
    intro hnil
    simp only [List.map_eq_nil_iff, List.reverse_eq_nil_iff] at hnil
    exact hne hnil

theorem encodeNat_no_comma : ∀ n : Nat, ',' ∉ encodeNat n := by
  intro n h
  obtain ⟨d, hd, hcd⟩ := encodeNat_all_digits n ',' h
  exact digitChar_ne_comma d hd hcd.symm

theorem parseNatDigits_encodeNat :
    ∀ n : Nat, parseNatDigits (encodeNat n) = some n := by
  intro n
  by_cases h : n = 0
  · subst h; decide
  · have hne : Nat.digits 10 n ≠ [] := Nat.digits_ne_nil_iff_ne_zero.mpr h
    have hlt : ∀ d ∈ (Nat.digits 10 n).reverse, d < 10 := by
      intro d hd
      exact Nat.digits_lt_base (by omega) (List.mem_reverse.mp hd)
    have hform : encodeNat n = (Nat.digits 10 n).reverse.map Nat.digitChar := by
      simp [encodeNat, if_neg h]
    obtain ⟨d0, ds, hds⟩ := List.exists_cons_of_ne_nil
      (fun hnil => hne (by simpa using congrArg List.reverse hnil) :
        (Nat.digits 10 n).reverse ≠ [])
    have : parseNatDigits (encodeNat n) =
        parseDigitsAux 0 ((Nat.digits 10 n).reverse.map Nat.digitChar) := by
      rw [hform, hds]; rfl
    rw [this, parseDigitsAux_digitChars _ 0 hlt, foldl_msd_eq]
    simp [Nat.ofDigits_digits]

theorem parseUsize_encodeNat :
    ∀ n : Nat, n < 2 ^ 64 → parseUsize (encodeNat n) = some n := by
  intro n hn
  obtain ⟨c0, cs, hcs⟩ := List.exists_cons_of_ne_nil (encodeNat_ne_nil n)
  have hc0 : c0 ∈ encodeNat n := hcs ▸ List.mem_cons_self c0 cs
  obtain ⟨d, hd, hcd⟩ := encodeNat_all_digits n c0 hc0
  have hplus : ¬ c0 = '+' := hcd ▸ digitChar_ne_plus d hd
  have hbody : parseUsize (encodeNat n) =
      match parseNatDigits (encodeNat n) with
      | some m => if m < 2 ^ 64 then some m else none
      | none => none := by
    rw [hcs]
    simp only [parseUsize, if_neg hplus]
  rw [hbody, parseNatDigits_encodeNat n]
  exact if_pos hn

theorem parseLevels_error_or_ok :
    ∀ segs : List (List Char),
      parseLevels segs = .error "Not a comma separated list of numbers" ∨
        ∃ ls, parseLevels segs = .ok ls := by
  intro segs
  induction segs with
  | nil => exact Or.inr ⟨[], rfl⟩
  | cons seg rest ih =>
    cases hseg : parseUsize seg with
    | none => exact Or.inl (by simp [parseLevels, hseg, levelParseError])
    | some n =>
      rcases ih with h | ⟨ls, h⟩
      · exact Or.inl (by simp [parseLevels, hseg, h, levelParseError])
      · exact Or.inr ⟨Level.new n :: ls, by simp [parseLevels, hseg, h]⟩

theorem from_str_encode_ok :
    ∀ ns : List Nat, ns ≠ [] → (∀ n ∈ ns, n < 2 ^ 64) →
      levelInfoFromStr (encodeNatList ns) = .ok (ns.map Level.new) := by
  intro ns hne hlt
  have hsplit : splitComma (encodeNatList ns) = ns.map encodeNat := by
    apply splitComma_joinComma
    · simpa using hne
    · intro p hp
      obtain ⟨n, _, hn⟩ := List.mem_map.mp hp
      exact hn ▸ encodeNat_no_comma n
  rw [levelInfoFromStr, hsplit]
  clear hsplit hne
  induction ns with
  | nil => rfl
  | cons n rest ih =>
    have hn : n < 2 ^ 64 := hlt n (List.mem_cons_self _ _)
    simp only [List.map_cons, parseLevels, parseUsize_encodeNat n hn,
      ih (fun x hx => hlt x (List.mem_cons_of_mem n hx))]

/-- C7: for every comma-separated list of (64-bit representable) numbers
`n1,...,nk`, `LevelInfo::from_str` returns `Ok` with `k` levels whose maximum
sizes are `n1,...,nk` in order; in particular the default configuration
string `"100,50,25"` yields exactly the three levels of sizes 100, 50, 25. -/
theorem c7_from_str_parses_levels :
    (∀ ns : List Nat, ns ≠ [] → (∀ n ∈ ns, n < 2 ^ 64) →
      levelInfoFromStr (encodeNatList ns) = .ok (ns.map Level.new)) ∧
    levelInfoFromStr "100,50,25".data =
      .ok [Level.new 100, Level.new 50, Level.new 25] := by
  refine ⟨from_str_encode_ok, ?_⟩
  rfl

theorem c7_from_str_parses_levels_witness :
    levelInfoFromStr (encodeNatList [100, 50, 25]) =
      .ok ([100, 50, 25].map Level.new) :=
  c7_from_str_parses_levels.1 [100, 50, 25] (by decide) (by decide)

/-- C9: `LevelInfo::from_str` is total — every input yields either `Ok` or
the fixed error `"Not a comma separated list of numbers"`; in particular the
empty string (a single empty segment, which fails numeric parsing) yields
that error rather than an empty level list. -/
theorem c9_from_str_total :
    (∀ s : List Char,
      levelInfoFromStr s = .error "Not a comma separated list of numbers" ∨
        ∃ ls, levelInfoFromStr s = .ok ls) ∧
    levelInfoFromStr [] = .error "Not a comma separated list of numbers" := by
  exact ⟨fun s => parseLevels_error_or_ok (splitComma s), rfl⟩

/-- C10: `LevelInfo::from_str` validates nothing beyond numeric parsing —
the input `"0"` yields `Ok` with a single level of maximum size 0, and more
generally every encoded list of numbers containing 0 yields `Ok` with a
zero-capacity level in it. -/
theorem c10_zero_capacity_accepted :
    levelInfoFromStr "0".data = .ok [Level.new 0] ∧
    (∀ ns : List Nat, ns ≠ [] → (∀ n ∈ ns, n < 2 ^ 64) → 0 ∈ ns →
      levelInfoFromStr (encodeNatList ns) = .ok (ns.map Level.new) ∧
        Level.new 0 ∈ ns.map Level.new) := by
  refine ⟨rfl, fun ns hne hlt h0 => ⟨from_str_encode_ok ns hne hlt, ?_⟩⟩
  exact List.mem_map.mpr ⟨0, h0, rfl⟩

theorem c10_zero_capacity_accepted_witness :
    levelInfoFromStr (encodeNatList [0, 2]) = .ok ([0, 2].map Level.new) ∧
      Level.new 0 ∈ [0, 2].map Level.new :=
  c10_zero_capacity_accepted.2 [0, 2] (by decide) (by decide) (by decide)

/-! ## The error taxonomy -/

/-- C5 counterexample: the error taxonomy of `src/errors.rs` has no
`StoreUnavailable` variant — no error value classifies as that kind. -/
theorem c5_no_store_unavailable_counterexample :
    ¬ ∃ e : StateCompressorError (Fin 1) Nat,
      e.kind = SpecErrorKind.storeUnavailable := by
  rintro ⟨e, h⟩
  cases e <;> simp [StateCompressorError.kind] at h

/-- C5 (amended): the error taxonomy consists of exactly the four variants
`MissingStateGroup`, `MissingPrevStateGroup`, `StateMissmatchedForGroup` and
`ExpectedStateMismatched`; it contains no `StoreUnavailable` variant, so
transient store faults are not represented in `StateCompressorError`. -/
theorem c5_taxonomy_amended :
    ∀ (K V : Type) (e : StateCompressorError K V),
      e.kind ≠ SpecErrorKind.storeUnavailable ∧
        (e.kind = SpecErrorKind.missingStateGroup ∨
          e.kind = SpecErrorKind.missingPrevStateGroup ∨
          e.kind = SpecErrorKind.stateMismatchedForGroup ∨
          e.kind = SpecErrorKind.expectedStateMismatched) := by
  intro K V e
  cases e <;> simp [StateCompressorError.kind]

/-! ## Skip safety and verification faults -/

theorem verifyChunk_mismatch_inv {K V : Type} [DecidableEq (StateMap K V)]
    (orig rewritten : GroupStore K V) (fuel : Nat) :
    ∀ (ids : List Int) (g : Int) (e f : StateMap K V),
      verifyChunk orig rewritten fuel ids =
        .error (.stateMissmatchedForGroup g e f) →
      resolveState orig fuel g = some e ∧
        resolveState rewritten fuel g = some f ∧ e ≠ f := by
  intro ids
  induction ids with
  | nil => intro g e f h; simp [verifyChunk] at h
  | cons id rest ih =>
    intro g e f h
    rw [verifyChunk] at h
    cases ho : resolveState orig fuel id with
    | none => rw [ho] at h; simp at h
    | some e' =>
      cases hr : resolveState rewritten fuel id with
      | none => rw [ho, hr] at h; simp at h
      | some f' =>
        rw [ho, hr] at h
        dsimp only at h
        by_cases hef : e' = f'
        · rw [if_pos hef] at h
          exact ih g e f h
        · rw [if_neg hef] at h
          simp only [Except.error.injEq, StateCompressorError.stateMissmatchedForGroup.injEq] at h
          obtain ⟨hg, he, hf⟩ := h
          subst hg; subst he; subst hf
          exact ⟨ho, hr, hef⟩

theorem processChunk_skip {K V : Type} [Fintype K] [DecidableEq K]
    [DecidableEq V] [DecidableEq (StateMap K V)] (caps : List Nat)
    (rs : RoomState K V) (ids : List Int)
    (h : (∃ err, chunkVerify caps rs ids = .error err) ∨
      ¬ storeRows (chunkCompressed caps rs ids).newMap < chunkRows rs.store ids) :
    processChunk caps rs ids = rs := by
  rw [processChunk]
  rcases h with ⟨err, herr⟩ | hnr
  · rw [herr]
  · cases hv : chunkVerify caps rs ids with
    | error e => rfl
    | ok u =>
      cases u
      simp only [if_neg hnr]

/-- C3: for every chunk on which verification fails or the Level Engine
finds no net size reduction, the chunk manager commits nothing — the durable
store and the room's progress cursor are exactly as before the chunk — and
processing continues with the rest of the run's chunks. -/
theorem c3_skip_leaves_state_unchanged :
    ∀ (K V : Type) [Fintype K] [DecidableEq K] [DecidableEq V]
      [DecidableEq (StateMap K V)] (caps : List Nat) (rs : RoomState K V)
      (ids : List Int) (rest : List (List Int)),
      ((∃ err, chunkVerify caps rs ids = .error err) ∨
        ¬ storeRows (chunkCompressed caps rs ids).newMap <
            chunkRows rs.store ids) →
      processChunk caps rs ids = rs ∧
        processChunks caps rs (ids :: rest) = processChunks caps rs rest := by
  intro K V _ _ _ _ caps rs ids rest h
  have h1 := processChunk_skip caps rs ids h
  exact ⟨h1, by rw [processChunks, h1]⟩

theorem c3_skip_leaves_state_unchanged_witness :
    processChunk [2]
        (⟨[(1, ⟨some 99, fun _ => some 0⟩)], none⟩ : RoomState (Fin 1) Nat)
        [1] =
      (⟨[(1, ⟨some 99, fun _ => some 0⟩)], none⟩ : RoomState (Fin 1) Nat) ∧
    processChunks [2]
        (⟨[(1, ⟨some 99, fun _ => some 0⟩)], none⟩ : RoomState (Fin 1) Nat)
        [[1]] =
      processChunks [2]
        (⟨[(1, ⟨some 99, fun _ => some 0⟩)], none⟩ : RoomState (Fin 1) Nat)
        [] :=
  c3_skip_leaves_state_unchanged (Fin 1) Nat [2] _ [1] []
    (Or.inl ⟨.missingStateGroup 1, rfl⟩)

/-- C4: when verification finds the first full-state mismatch, it fails with
the structured fault `StateMissmatchedForGroup` carrying the offending group
id together with both resolved `StateMap`s (the expected, original one and
the found, rewritten one — which really differ), and the chunk's commit is
aborted entirely: the durable room state is unchanged. -/
theorem c4_mismatch_structured_fault :
    ∀ (K V : Type) [Fintype K] [DecidableEq K] [DecidableEq V]
      [DecidableEq (StateMap K V)] (caps : List Nat) (rs : RoomState K V)
      (ids : List Int) (g : Int) (e f : StateMap K V),
      chunkVerify caps rs ids = .error (.stateMissmatchedForGroup g e f) →
      resolveState rs.store (chunkFuel rs ids) g = some e ∧
        resolveState (chunkCompressed caps rs ids).newMap (chunkFuel rs ids) g =
          some f ∧
        e ≠ f ∧ processChunk caps rs ids = rs := by
  intro K V _ _ _ _ caps rs ids g e f h
  obtain ⟨h1, h2, h3⟩ := verifyChunk_mismatch_inv rs.store
    (chunkCompressed caps rs ids).newMap (chunkFuel rs ids) ids g e f h
  exact ⟨h1, h2, h3, processChunk_skip caps rs ids (Or.inl ⟨_, h⟩)⟩

theorem c4_mismatch_structured_fault_witness :
    ((fun _ => none : StateMap (Fin 1) Nat) ≠ fun _ => some 1) ∧
      processChunk [2]
          (⟨[(1, ⟨none, fun _ => some 1⟩), (2, ⟨none, fun _ => none⟩)],
            none⟩ : RoomState (Fin 1) Nat) [1, 2] =
        (⟨[(1, ⟨none, fun _ => some 1⟩), (2, ⟨none, fun _ => none⟩)],
          none⟩ : RoomState (Fin 1) Nat) := by
  have h := c4_mismatch_structured_fault (Fin 1) Nat [2]
    (⟨[(1, ⟨none, fun _ => some 1⟩), (2, ⟨none, fun _ => none⟩)], none⟩ :
      RoomState (Fin 1) Nat) [1, 2] 2 (fun _ => none)
    (applyDelta (fun _ => some 1)
      (getDelta (fun _ => some 1) (fun _ => none))) rfl
  exact ⟨fun hc => h.2.2.1 (by rw [hc]; funext k; rfl), h.2.2.2⟩

/-! ## Bounded nesting of the self-wrapping error -/

theorem checkGroupTransitive_errDepth_lt {K V : Type}
    [DecidableEq (StateMap K V)] (orig rewritten : GroupStore K V)
    (fuel : Nat) :
    ∀ (cap : Nat) (id : Int) (e : StateCompressorError K V),
      checkGroupTransitive orig rewritten fuel cap id = .error e →
      errDepth e < cap := by
  intro cap
  induction cap with
  | zero => intro id e h; simp [checkGroupTransitive] at h
  | succ cap ih =>
    intro id e h
    rw [checkGroupTransitive] at h
    cases ho : resolveState orig fuel id with
    | none =>
      rw [ho] at h
      cases hr : resolveState rewritten fuel id <;> rw [hr] at h <;>
        · simp only [Except.error.injEq] at h
          rw [← h]
          simp [errDepth]
    | some ev =>
      cases hr : resolveState rewritten fuel id with
      | none =>
        rw [ho, hr] at h
        simp only [Except.error.injEq] at h
        rw [← h]; simp [errDepth]
      | some fv =>
        rw [ho, hr] at h
        dsimp only at h
        by_cases hef : ev = fv
        · rw [if_pos hef] at h; simp at h
        · rw [if_neg hef] at h
          cases hl : lookupGroup rewritten id with
          | none =>
            rw [hl] at h
            simp only [Except.error.injEq] at h
            rw [← h]; simp [errDepth]
          | some row =>
            rw [hl] at h
            dsimp only at h
            cases hp : row.prevStateGroup with
            | none =>
              rw [hp] at h
              simp only [Except.error.injEq] at h
              rw [← h]; simp [errDepth]
            | some p =>
              rw [hp] at h
              dsimp only at h
              cases hc : checkGroupTransitive orig rewritten fuel cap p with
              | error sub =>
                rw [hc] at h
                simp only [Except.error.injEq] at h
                rw [← h]
                simp only [errDepth]
                exact Nat.succ_lt_succ (ih p sub hc)
              | ok u =>
                cases u
                rw [hc] at h
                simp only [Except.error.injEq] at h
                rw [← h]; simp [errDepth]

/-- C6: every self-wrapping mismatch error produced by the transitive
verification check has `ExpectedStateMismatched` nesting depth bounded by
the configured chain-depth cap, so unwrapping it terminates within at most
that many steps. -/
theorem c6_bounded_error_nesting :
    ∀ (K V : Type) [DecidableEq (StateMap K V)]
      (orig rewritten : GroupStore K V) (fuel cap : Nat) (id : Int)
      (e : StateCompressorError K V),
      checkGroupTransitive orig rewritten fuel cap id = .error e →
      errDepth e ≤ cap := by
  intro K V _ orig rewritten fuel cap id e h
  exact Nat.le_of_lt (checkGroupTransitive_errDepth_lt orig rewritten fuel cap id e h)

theorem c6_bounded_error_nesting_witness :
    errDepth (StateCompressorError.missingStateGroup (K := Fin 1) (V := Nat) 1) ≤ 3 :=
  c6_bounded_error_nesting (Fin 1) Nat [] [] 1 3 1
    (StateCompressorError.missingStateGroup 1) rfl

/-! ## Bootstrap idempotence -/

/-- C8: creating the two durable progress/state records is idempotent —
running table creation twice leaves the store exactly as running it once,
and tables that already exist are not touched. -/
theorem c8_create_tables_idempotent :
    ∀ (A B : Type) (s : SchemaState A B),
      create_tables_if_needed (create_tables_if_needed s) =
        create_tables_if_needed s := by
  intro A B s
  cases s with
  | mk st pr =>
    cases st <;> cases pr <;> rfl

end SynapseCompress
